import Mathlib

/-!
Verification of the `memagents` memory-block core: `CondensedMemoryBlock`
(`src/asdrp/memory/condensed_memory.py`) and
`PropositionExtractionMemoryBlock`
(`src/asdrp/memory/proposition_extraction_memory.py`).

The Python classes are shallowly embedded: external collaborators (the
tiktoken tokenizer and the LLM clients) are passed as explicit function
arguments, Python `str` operations on code points are modelled on
`String.data` (`List Char`), and a raised exception or a non-terminating
loop is modelled by an `Option`/`Except` failure value.
-/

set_option autoImplicit false

namespace Memagents

/-! ## Python string primitives

Python `len`, `str.strip`, `str.rstrip` and slicing `s[:n]` operate on code
points; they are modelled on the underlying character list of a `String`.
`Char.isWhitespace` stands for Python's whitespace class.
-/

/-- Characters of a string, modelling Python's view of `str` as a sequence
of code points. -/
def pyChars (s : String) : List Char := s.data

/-- Python `len(s)` (number of code points). -/
def pyLen (s : String) : Nat := s.data.length

/-- Strip whitespace from both ends of a character list
(Python `str.strip` on the underlying code points). -/
def stripChars (l : List Char) : List Char :=
  ((l.dropWhile Char.isWhitespace).reverse.dropWhile Char.isWhitespace).reverse

/-- Python `s.strip()`. -/
def pyStrip (s : String) : String := String.mk (stripChars s.data)

/-- Python `s.rstrip()`. -/
def pyRStrip (s : String) : String :=
  String.mk ((s.data.reverse.dropWhile Char.isWhitespace).reverse)

/-- Python `s[:n]` (slice of the first `n` code points). -/
def pyTake (s : String) (n : Nat) : String := String.mk (s.data.take n)

/-- Python `"\n".join(parts)`. -/
def joinNL : List String → String
  | [] => ""
  | [s] => s
  | s :: rest => s ++ "\n" ++ joinNL rest

/-! ## Python values for side-channel annotations

`message.additional_kwargs` is a Python `dict` whose values may be strings,
nested dicts or lists (e.g. the `tool_calls` descriptor list).  It is
modelled as an association list in iteration (insertion) order.
-/

/-- A Python value as stored in `additional_kwargs`. -/
inductive PyVal where
  | str : String → PyVal
  | dict : List (String × PyVal) → PyVal
  | list : List PyVal → PyVal

/-- Python `d[k]` on a dict value: the value under the first matching key,
`none` when the subscripted value is not a dict or the key is missing
(Python raises `TypeError` / `KeyError`). -/
def PyVal.getKey : PyVal → String → Option PyVal
  | .dict kvs, k => lookupKV kvs k
  | _, _ => none
where
  lookupKV : List (String × PyVal) → String → Option PyVal
    | [], _ => none
    | (k', v) :: rest, k => if k' = k then some v else lookupKV rest k

/-- Python `repr` of a string as rendered inside `f"({kwargs})"`
(single-quoted; values are assumed not to need escape sequences). -/
def pyReprString (s : String) : String := "\x27" ++ s ++ "\x27"

mutual

/-- Python `str`/`repr` of a value, as produced by `f"({kwargs})"`. -/
def pyReprVal : PyVal → String
  | .str s => pyReprString s
  | .dict kvs => "\x7b" ++ pyReprKVs kvs ++ "\x7d"
  | .list xs => "[" ++ pyReprVals xs ++ "]"

/-- Python rendering of the comma-separated `key: value` items of a dict. -/
def pyReprKVs : List (String × PyVal) → String
  | [] => ""
  | [(k, v)] => pyReprString k ++ ": " ++ pyReprVal v
  | (k, v) :: rest => pyReprString k ++ ": " ++ pyReprVal v ++ ", " ++ pyReprKVs rest

/-- Python rendering of the comma-separated items of a list. -/
def pyReprVals : List PyVal → String
  | [] => ""
  | [v] => pyReprVal v
  | v :: rest => pyReprVal v ++ ", " ++ pyReprVals rest

end

/-! ## Chat messages

A `llama_index` `ChatMessage` as consumed by `_aput`: a list of content
blocks (only `TextBlock`s are read) plus the `additional_kwargs` mapping.
-/

/-- One content block of a message; `other` stands for any
non-`TextBlock` block kind, which `_aput` skips. -/
inductive ContentBlock where
  | text : String → ContentBlock
  | other : ContentBlock

/-- A chat message: content blocks plus side-channel annotations. -/
structure ChatMessage where
  blocks : List ContentBlock
  additional_kwargs : List (String × PyVal)

/-! ## CondensedMemoryBlock (`condensed_memory.py`)

The tokenizer `self._tokenizer` is passed as `measure : String → Nat`
(Python `len(tokenizer.encode(text))`) and the summarization LLM
`self._llm.acomplete` as `llm : String → String` (prompt to reply text).
A raised exception or a non-terminating eviction loop makes the modelled
`_aput` return `none`.
-/

/-- Design constant `MAX_SUMMARY_CHARS` from `condensed_memory.py`. -/
def MAX_SUMMARY_CHARS : Nat := 128

/-- `SUMMARIZE_TEXT_PROMPT.format(max_chars=…, text=…)`. -/
def SUMMARIZE_TEXT_PROMPT_format (max_chars : Nat) (text : String) : String :=
  "Summarize the following text in no more than " ++ toString max_chars ++
    " characters. Be concise and preserve key meaning.\n\n" ++ text

/-- State of a `CondensedMemoryBlock`.  `token_limit` is a Python `int`
(the pydantic field declares no positivity bound, so any integer is
representable); `current_memory` is the ordered entry list. -/
structure CondensedMemoryBlock where
  name : String
  token_limit : Int
  current_memory : List String

/-- Pydantic construction of a `CondensedMemoryBlock`: both `name` and
`token_limit` are declared as `Field` with a default and no value
constraint, so validation can never reject an integer `token_limit`; the
`Option` result is where a pydantic `ValidationError` would surface. -/
def CondensedMemoryBlock.construct (name : String) (token_limit : Int) :
    Option CondensedMemoryBlock :=
  some { name := name, token_limit := token_limit, current_memory := [] }

/-- `summarize_text_with_llm`: short (trimmed) text is returned trimmed;
longer text is summarized by the LLM, and an over-long reply is sliced to
`max_chars`, right-stripped, and suffixed with an ellipsis. -/
def CondensedMemoryBlock.summarize_text_with_llm (llm : String → String)
    (text : String) (max_chars : Nat) : String :=
  if pyLen (pyStrip text) ≤ max_chars then pyStrip text
  else
    let summary := pyStrip (llm (SUMMARIZE_TEXT_PROMPT_format max_chars text))
    if pyLen summary > max_chars then pyRStrip (pyTake summary max_chars) ++ "..."
    else summary

/-- The summaries list built by the block loop of `_aput`: one summary per
`TextBlock`, other block kinds skipped. -/
def summariesOf (llm : String → String) : List ContentBlock → List String
  | [] => []
  | .text t :: rest =>
    CondensedMemoryBlock.summarize_text_with_llm llm t MAX_SUMMARY_CHARS ::
      summariesOf llm rest
  | .other :: rest => summariesOf llm rest

/-- Reduce one element of a `tool_calls` annotation to its
`name`/`args` pair (`tool_call["function"]["name"]`,
`tool_call["function"]["arguments"]`); `none` models the `TypeError` /
`KeyError` Python raises on a malformed element. -/
def reduceToolCall (tc : PyVal) : Option PyVal :=
  match tc.getKey "function" with
  | none => none
  | some fn =>
    match fn.getKey "name", fn.getKey "arguments" with
    | some nm, some args => some (.dict [("name", nm), ("args", args)])
    | _, _ => none

/-- The `tool_calls` list-comprehension of `_aput`: reduce every element,
failing if any element is malformed or the value is not a list. -/
def transformToolCalls : PyVal → Option PyVal
  | .list tcs => (mapReduce tcs).map PyVal.list
  | _ => none
where
  mapReduce : List PyVal → Option (List PyVal)
    | [] => some []
    | tc :: rest =>
      match reduceToolCall tc with
      | none => none
      | some r => (mapReduce rest).map (r :: ·)

/-- The kwargs-filtering loop of `_aput`: `tool_calls` is transformed,
`session_id` and `tool_call_id` are dropped, every other key is kept
verbatim, in iteration order. -/
def processKwargs : List (String × PyVal) → Option (List (String × PyVal))
  | [] => some []
  | (key, val) :: rest =>
    if key = "tool_calls" then
      match transformToolCalls val, processKwargs rest with
      | some v, some kw => some ((key, v) :: kw)
      | _, _ => none
    else if key = "session_id" ∨ key = "tool_call_id" then processKwargs rest
    else
      match processKwargs rest with
      | some kw => some ((key, val) :: kw)
      | none => none

/-- The per-message entry string built by `_aput`: newline-joined block
summaries, then — only when the filtered kwargs are non-empty — a new line
holding the parenthesized Python rendering of the filtered kwargs dict. -/
def entryOfMessage (llm : String → String) (message : ChatMessage) : Option String :=
  let text_contents := joinNL (summariesOf llm message.blocks)
  -- `memory_str = text_contents if text_contents else ""` is the identity on strings
  let memory_str := text_contents
  match processKwargs message.additional_kwargs with
  | none => none
  | some kwargs =>
    some (if kwargs.isEmpty then memory_str
          else memory_str ++ "\n(" ++ pyReprVal (PyVal.dict kwargs) ++ ")")

/-- The message loop of `_aput`: one appended entry per message. -/
def mapEntries (llm : String → String) : List ChatMessage → Option (List String)
  | [] => some []
  | msg :: rest =>
    match entryOfMessage llm msg with
    | none => none
    | some e => (mapEntries llm rest).map (e :: ·)

/-- `message_length` of `_aput`: total tokenizer-measured length of all
stored entries. -/
def totalTokens (measure : String → Nat) (mem : List String) : Nat :=
  (mem.map measure).sum

/-- The eviction loop of `_aput`:
`while message_length > token_limit: current_memory = current_memory[1:]`.
When the memory is empty and `0 > token_limit` still holds the Python loop
never terminates; that run is modelled as `none`. -/
def evictLoop (measure : String → Nat) (token_limit : Int) :
    List String → Option (List String)
  | [] => if (0 : Int) > token_limit then none else some []
  | m :: rest =>
    if (totalTokens measure (m :: rest) : Int) > token_limit then
      evictLoop measure token_limit rest
    else some (m :: rest)

/-- `CondensedMemoryBlock._aput`: append one entry per message, then run
the eviction loop over the whole entry list. -/
def CondensedMemoryBlock.aput (measure : String → Nat) (llm : String → String)
    (blk : CondensedMemoryBlock) (messages : List ChatMessage) :
    Option CondensedMemoryBlock :=
  match mapEntries llm messages with
  | none => none
  | some newEntries =>
    match evictLoop measure blk.token_limit (blk.current_memory ++ newEntries) with
    | none => none
    | some mem => some { blk with current_memory := mem }

/-- `CondensedMemoryBlock._aget`: newline-join of the stored entries. -/
def CondensedMemoryBlock.aget (blk : CondensedMemoryBlock) : String :=
  joinNL blk.current_memory

/-! ## PropositionExtractionMemoryBlock (`proposition_extraction_memory.py`)

The LLM (`self.llm.achat`) is passed as a function from the call payload to
`Except ε String`: `.error e` models a raised exception `e`.  `_aput`
performs up to two calls — extraction, then condensation — distinguished by
their prompt template; the payload of each call records everything that
feeds its prompt.
-/

/-- The literal `<proposition>` open tag as a character list. -/
def openTagChars : List Char := "<proposition>".data

/-- The literal `</proposition>` close tag as a character list. -/
def closeTagChars : List Char := "</proposition>".data

/-- Split a character list around the first occurrence of `pat`,
returning the part before and the part after (`re` scanning primitive);
`none` when `pat` does not occur. -/
def splitOnce (pat : List Char) : List Char → Option (List Char × List Char)
  | [] => if pat = [] then some ([], []) else none
  | c :: rest =>
    if pat.isPrefixOf (c :: rest) then some ([], (c :: rest).drop pat.length)
    else
      match splitOnce pat rest with
      | some (pre, post) => some (c :: pre, post)
      | none => none

/-- One `re.findall(r"<proposition>(.*?)</proposition>", …, re.DOTALL)`
step sequence: repeatedly take the text between the next open tag and the
first close tag after it.  The fuel argument only bounds the recursion
(each found match consumes at least one character, so `length + 1` fuel is
never exhausted); it keeps the definition structurally recursive. -/
def extractTaggedGo : Nat → List Char → List (List Char)
  | 0, _ => []
  | fuel + 1, s =>
    match splitOnce openTagChars s with
    | none => []
    | some (_, afterOpen) =>
      match splitOnce closeTagChars afterOpen with
      | none => []
      | some (content, rest) => content :: extractTaggedGo fuel rest

/-- All raw (untrimmed) matches of the proposition-tag pattern. -/
def extractTagged (s : List Char) : List (List Char) :=
  extractTaggedGo (s.length + 1) s

/-- `PropositionExtractionMemoryBlock._parse_propositions_xml`: every tag
match, trimmed, with blank-after-trim matches discarded, in order. -/
def parsePropositionsXml (xml_text : String) : List String :=
  ((extractTagged xml_text.data).map fun cs => String.mk (stripChars cs)).filter
    fun p => p ≠ ""

/-- State of a `PropositionExtractionMemoryBlock`; `max_propositions` is a
Python `int` field with a default and no positivity constraint. -/
structure PropositionExtractionMemoryBlock where
  name : String
  propositions : List String
  max_propositions : Int

/-- Pydantic construction of a `PropositionExtractionMemoryBlock`: the
`max_propositions` field declares only a default (50), no bound, so
validation can never reject an integer cap; the `Option` result is where a
pydantic `ValidationError` would surface. -/
def PropositionExtractionMemoryBlock.construct (name : String)
    (max_propositions : Int) : Option PropositionExtractionMemoryBlock :=
  some { name := name, propositions := [], max_propositions := max_propositions }

/-- The `<proposition>…</proposition>` rendering of a proposition list,
newline-joined — used by `_aget` and as the `existing_propositions` prompt
payload. -/
def renderProps (props : List String) : String :=
  joinNL (props.map fun p => "<proposition>" ++ p ++ "</proposition>")

/-- `PropositionExtractionMemoryBlock._aget`. -/
def PropositionExtractionMemoryBlock.aget
    (blk : PropositionExtractionMemoryBlock) : String :=
  if blk.propositions.isEmpty then "" else renderProps blk.propositions

/-- The payload of one `self.llm.achat` call inside `_aput`: the incoming
messages plus the prompt-template arguments of the call being made. -/
inductive LLMCall where
  | extract (messages : List ChatMessage) (existing : String)
  | condense (messages : List ChatMessage) (existing : String) (maxProps : Int)

/-- The merge loop of `_aput`: append each candidate only when it has no
exact match in the evolving list (pre-existing propositions plus candidates
appended earlier in the same pass). -/
def mergeProps (props cands : List String) : List String :=
  cands.foldl (fun acc p => if p ∈ acc then acc else acc ++ [p]) props

/-- The `existing_propositions_text` computed at the top of `_aput`. -/
def existingText (props : List String) : String :=
  if props.isEmpty then "" else renderProps props

/-- `PropositionExtractionMemoryBlock._aput`.  On success the new state is
returned; a raised LLM failure is returned as `.error (e, state)` where
`state` is the block state at the moment of the raise (mutations already
performed — e.g. a completed merge — are kept, matching the in-place Python
mutation). -/
def PropositionExtractionMemoryBlock.aput {ε : Type}
    (llm : LLMCall → Except ε String) (blk : PropositionExtractionMemoryBlock)
    (messages : List ChatMessage) :
    Except (ε × PropositionExtractionMemoryBlock) PropositionExtractionMemoryBlock :=
  if messages.isEmpty then .ok blk
  else
    match llm (.extract messages (existingText blk.propositions)) with
    | .error e => .error (e, blk)
    | .ok reply =>
      let new_propositions := parsePropositionsXml reply
      let merged := mergeProps blk.propositions new_propositions
      if (merged.length : Int) > blk.max_propositions then
        match llm (.condense messages (renderProps merged) blk.max_propositions) with
        | .error e => .error (e, { blk with propositions := merged })
        | .ok reply2 =>
          let condensed := parsePropositionsXml reply2
          if condensed.isEmpty then .ok { blk with propositions := merged }
          else .ok { blk with propositions := condensed }
      else .ok { blk with propositions := merged }

/-! ## Concrete fixtures

Messages and LLM oracles used by the concrete scenarios below.  All reply
strings are short enough that the kernel can evaluate the model on them.
-/

/-- A plain-text message `"hello"` with no annotations. -/
def mHello : ChatMessage := ⟨[.text "hello"], []⟩

/-- A plain-text message `"hi"` with no annotations. -/
def mHi : ChatMessage := ⟨[.text "hi"], []⟩

/-- A plain-text message `"cc"` with no annotations. -/
def mCC : ChatMessage := ⟨[.text "cc"], []⟩

/-- A plain-text conversation turn for the proposition-block scenarios. -/
def mCat : ChatMessage := ⟨[.text "I like cats."], []⟩

/-- An extraction LLM returning two propositions, whose condenser reply
parses to three propositions — more than a cap of 1. -/
def condenseOverLLM : LLMCall → Except Unit String
  | .extract _ _ => .ok "<proposition>a</proposition><proposition>b</proposition>"
  | .condense _ _ _ =>
    .ok "<proposition>c</proposition><proposition>d</proposition><proposition>e</proposition>"

/-- An extraction LLM whose condenser reply parses to the same
proposition twice. -/
def condenseDupLLM : LLMCall → Except Unit String
  | .extract _ _ => .ok "<proposition>a</proposition><proposition>b</proposition>"
  | .condense _ _ _ => .ok "<proposition>c</proposition><proposition>c</proposition>"

/-- An LLM whose every reply parses to a duplicate-free list. -/
def nodupLLM : LLMCall → Except Unit String
  | .extract _ _ => .ok "<proposition>a</proposition><proposition>b</proposition>"
  | .condense _ _ _ => .ok "<proposition>z</proposition>"

/-- An LLM whose extraction call raises. -/
def failingExtractLLM : LLMCall → Except String String
  | .extract _ _ => .error "boom"
  | .condense _ _ _ => .ok ""

/-- An LLM whose extraction succeeds but whose condensation call raises. -/
def failingCondenseLLM : LLMCall → Except String String
  | .extract _ _ => .ok "<proposition>a</proposition><proposition>b</proposition>"
  | .condense _ _ _ => .error "bam"

/-! ## Helper lemmas on the eviction loop -/

/-- Whenever the eviction loop terminates, the surviving entries satisfy
the token budget, with no single-entry exception. -/
theorem evictLoop_le {measure : String → Nat} {tl : Int} :
    ∀ {mem res : List String}, evictLoop measure tl mem = some res →
      (totalTokens measure res : Int) ≤ tl := by
  intro mem
  induction mem with
  | nil =>
    intro res h
    by_cases h0 : (0 : Int) > tl
    · simp [evictLoop, h0] at h
    · simp [evictLoop, h0] at h
      subst h
      simpa [totalTokens] using not_lt.mp h0
  | cons m rest ih =>
    intro res h
    by_cases hgt : (totalTokens measure (m :: rest) : Int) > tl
    · exact ih (by simpa [evictLoop, hgt] using h)
    · simp [evictLoop, hgt] at h
      subst h
      exact not_lt.mp hgt

/-- The eviction loop only removes entries from the front: the result is a
drop of the input at the first index whose tail fits the budget. -/
theorem evictLoop_drop {measure : String → Nat} {tl : Int} :
    ∀ {mem res : List String}, evictLoop measure tl mem = some res →
      ∃ k, res = mem.drop k ∧
        ∀ j < k, (totalTokens measure (mem.drop j) : Int) > tl := by
  intro mem
  induction mem with
  | nil =>
    intro res h
    by_cases h0 : (0 : Int) > tl
    · simp [evictLoop, h0] at h
    · simp [evictLoop, h0] at h
      subst h
      exact ⟨0, rfl, by omega⟩
  | cons m rest ih =>
    intro res h
    by_cases hgt : (totalTokens measure (m :: rest) : Int) > tl
    · obtain ⟨k, hk, hmin⟩ := ih (by simpa [evictLoop, hgt] using h)
      refine ⟨k + 1, by simpa using hk, ?_⟩
      intro j hj
      cases j with
      | zero => simpa using hgt
      | succ j' => simpa using hmin j' (by omega)
    · simp [evictLoop, hgt] at h
      subst h
      exact ⟨0, rfl, by omega⟩

/-- With a negative token limit the eviction loop never terminates
(Python loops forever once the memory is empty). -/
theorem evictLoop_neg {measure : String → Nat} {tl : Int} (h : tl < 0) :
    ∀ mem : List String, evictLoop measure tl mem = none := by
  intro mem
  induction mem with
  | nil => simp [evictLoop, h]
  | cons m rest ih =>
    have hgt : (totalTokens measure (m :: rest) : Int) > tl :=
      lt_of_lt_of_le h (Int.ofNat_nonneg _)
    simp [evictLoop, hgt, ih]

/-- Every terminating `_aput` leaves the total measured length within the
token limit. -/
theorem aput_total_le {measure : String → Nat} {llm : String → String}
    {blk : CondensedMemoryBlock} {msgs : List ChatMessage}
    {blk' : CondensedMemoryBlock}
    (h : CondensedMemoryBlock.aput measure llm blk msgs = some blk') :
    (totalTokens measure blk'.current_memory : Int) ≤ blk.token_limit := by
  unfold CondensedMemoryBlock.aput at h
  split at h
  · cases h
  · split at h
    · cases h
    · next mem he =>
      injection h with h
      subst h
      exact evictLoop_le he

/-- Every terminating `_aput` appends its new entries at the tail and then
drops some prefix of the combined list, dropping the least prefix whose
remainder fits the budget. -/
theorem aput_drop {measure : String → Nat} {llm : String → String}
    {blk : CondensedMemoryBlock} {msgs : List ChatMessage}
    {blk' : CondensedMemoryBlock} {newEntries : List String}
    (hmap : mapEntries llm msgs = some newEntries)
    (h : CondensedMemoryBlock.aput measure llm blk msgs = some blk') :
    ∃ k, blk'.current_memory = (blk.current_memory ++ newEntries).drop k ∧
      ∀ j < k,
        (totalTokens measure ((blk.current_memory ++ newEntries).drop j) : Int) >
          blk.token_limit := by
  unfold CondensedMemoryBlock.aput at h
  rw [hmap] at h
  simp only at h
  split at h
  · cases h
  · next mem he =>
    injection h with h
    subst h
    obtain ⟨k, hk, hmin⟩ := evictLoop_drop he
    exact ⟨k, hk, hmin⟩

/-- With a negative token limit every `_aput` call fails to terminate. -/
theorem aput_neg {measure : String → Nat} {llm : String → String}
    {blk : CondensedMemoryBlock} {msgs : List ChatMessage}
    (h : blk.token_limit < 0) :
    CondensedMemoryBlock.aput measure llm blk msgs = none := by
  unfold CondensedMemoryBlock.aput
  cases hm : mapEntries llm msgs with
  | none => rfl
  | some newEntries => simp [evictLoop_neg h]

/-! ## Claim theorems: CondensedMemoryBlock -/

/-- C1 counterexample: with budget 2, ingesting the single message
`"hello"` (measured length 5 under the character-count tokenizer) appends
the entry `"hello"` and then evicts it, leaving zero entries — the ingest
evicts the entry it just added even though that leaves the block empty, so
the most recent entry is not kept when it alone exceeds the budget. -/
theorem C1_counterexample :
    mapEntries id [mHello] = some ["hello"] ∧
      CondensedMemoryBlock.aput pyLen id ⟨"c1", 2, []⟩ [mHello] =
        some ⟨"c1", 2, []⟩ :=
  ⟨rfl, rfl⟩

/-- C1 (amended): after each terminating ingest the total measured length
of the stored entries is at most the budget, with no single-entry
exception — the eviction loop also removes a sole entry that individually
exceeds the budget (including the entry added by the same ingest call),
possibly leaving zero entries. -/
theorem C1_budget_no_single_entry_exception :
    (∀ (measure : String → Nat) (llm : String → String)
        (blk : CondensedMemoryBlock) (msgs : List ChatMessage)
        (blk' : CondensedMemoryBlock),
        CondensedMemoryBlock.aput measure llm blk msgs = some blk' →
        (totalTokens measure blk'.current_memory : Int) ≤ blk.token_limit) ∧
      ∀ (measure : String → Nat) (tl : Int) (e : String),
        (measure e : Int) > tl → 0 ≤ tl → evictLoop measure tl [e] = some [] := by
  refine ⟨fun _ _ _ _ _ h => aput_total_le h, fun measure tl e hgt h0 => ?_⟩
  have h1 : (totalTokens measure [e] : Int) > tl := by simpa [totalTokens] using hgt
  have h2 : ¬ (0 : Int) > tl := not_lt.mpr h0
  simp [evictLoop, h1, h2]

/-- C1 witness: a sole entry of measured length 5 over budget 2 is
evicted, and a terminating ingest stays within budget. -/
theorem C1_witness :
    evictLoop pyLen 2 ["hello"] = some [] ∧
      (totalTokens pyLen ["hi"] : Int) ≤ 2 :=
  ⟨C1_budget_no_single_entry_exception.2 pyLen 2 "hello" (by decide) (by decide),
    C1_budget_no_single_entry_exception.1 pyLen id ⟨"w1", 2, []⟩ [mHi]
      ⟨"w1", 2, ["hi"]⟩ rfl⟩

/-- C2: after every terminating `_aput` the sum of tokenizer-measured
lengths of `current_memory` is at most `token_limit`, unconditionally;
concretely, ingesting `"hello"` (length 5) into an empty block with limit
2 evicts the sole, just-appended entry and leaves the block empty. -/
theorem C2_budget_unconditional :
    (∀ (measure : String → Nat) (llm : String → String)
        (blk : CondensedMemoryBlock) (msgs : List ChatMessage)
        (blk' : CondensedMemoryBlock),
        CondensedMemoryBlock.aput measure llm blk msgs = some blk' →
        (totalTokens measure blk'.current_memory : Int) ≤ blk.token_limit) ∧
      CondensedMemoryBlock.aput pyLen id ⟨"sole", 2, []⟩ [mHello] =
        some ⟨"sole", 2, []⟩ :=
  ⟨fun _ _ _ _ _ h => aput_total_le h, rfl⟩

/-- C2 witness: the budget bound instantiated on a concrete ingest. -/
theorem C2_witness : (totalTokens pyLen [] : Int) ≤ 2 :=
  C2_budget_unconditional.1 pyLen id ⟨"w2", 2, []⟩ [mHello] ⟨"w2", 2, []⟩ rfl

/-- C7: entries are never reordered — a terminating ingest appends its new
entries at the tail and eviction drops a prefix of the combined list
(oldest first), stopping at the least prefix whose remaining sum fits, so
the most recently appended entry is evicted last. -/
theorem C7_append_tail_evict_head
    (measure : String → Nat) (llm : String → String)
    (blk : CondensedMemoryBlock) (msgs : List ChatMessage)
    (blk' : CondensedMemoryBlock) (newEntries : List String)
    (hmap : mapEntries llm msgs = some newEntries)
    (h : CondensedMemoryBlock.aput measure llm blk msgs = some blk') :
    ∃ k, blk'.current_memory = (blk.current_memory ++ newEntries).drop k ∧
      ∀ j < k,
        (totalTokens measure ((blk.current_memory ++ newEntries).drop j) : Int) >
          blk.token_limit :=
  aput_drop hmap h

/-- C7 witness: entries `["aa", "bb"]` plus new entry `"cc"` under budget
4 lose exactly the oldest entry. -/
theorem C7_witness :
    ∃ k, (["bb", "cc"] : List String) = (["aa", "bb"] ++ ["cc"]).drop k ∧
      ∀ j < k,
        (totalTokens pyLen ((["aa", "bb"] ++ ["cc"]).drop j) : Int) > 4 :=
  C7_append_tail_evict_head pyLen id ⟨"w7", 4, ["aa", "bb"]⟩ [mCC]
    ⟨"w7", 4, ["bb", "cc"]⟩ ["cc"] rfl rfl

/-- C8 counterexample: constructing a block with a non-positive budget or
cap succeeds — pydantic validates no positivity constraint, so no
validation error is raised at construction time. -/
theorem C8_counterexample :
    CondensedMemoryBlock.construct "b" (-1) = some ⟨"b", -1, []⟩ ∧
      PropositionExtractionMemoryBlock.construct "p" 0 = some ⟨"p", [], 0⟩ :=
  ⟨rfl, rfl⟩

/-- C8 (amended): construction always succeeds, for non-positive budgets
and caps included — the `token_limit` and `max_propositions` fields carry
no validation — and the misbehavior surfaces at ingest instead: with a
negative budget the eviction loop of `_aput` never terminates. -/
theorem C8_no_construction_validation :
    (∀ (name : String) (tl : Int),
        (CondensedMemoryBlock.construct name tl).isSome = true) ∧
      (∀ (name : String) (cap : Int),
        (PropositionExtractionMemoryBlock.construct name cap).isSome = true) ∧
      ∀ (measure : String → Nat) (llm : String → String)
        (blk : CondensedMemoryBlock) (msgs : List ChatMessage),
        blk.token_limit < 0 →
        CondensedMemoryBlock.aput measure llm blk msgs = none :=
  ⟨fun _ _ => rfl, fun _ _ => rfl, fun _ _ _ _ h => aput_neg h⟩

/-- C8 witness: a block built with budget −1 never completes an ingest. -/
theorem C8_witness :
    CondensedMemoryBlock.aput pyLen id ⟨"w8", -1, []⟩ [mHi] = none :=
  C8_no_construction_validation.2.2 pyLen id ⟨"w8", -1, []⟩ [mHi] (by decide)

/-- C9: `summarize_text_with_llm` returns the trimmed text unchanged (for
every LLM, i.e. without consulting it) when its trimmed length fits
`max_chars`; otherwise it returns the LLM summary trimmed, hard-truncating
to `max_chars`, right-stripping and appending an ellipsis marker whenever
the trimmed summary still exceeds `max_chars`. -/
theorem C9_summarize :
    (∀ (llm : String → String) (text : String) (max_chars : Nat),
        pyLen (pyStrip text) ≤ max_chars →
        CondensedMemoryBlock.summarize_text_with_llm llm text max_chars =
          pyStrip text) ∧
      (∀ (llm : String → String) (text : String) (max_chars : Nat),
        pyLen (pyStrip text) > max_chars →
        pyLen (pyStrip (llm (SUMMARIZE_TEXT_PROMPT_format max_chars text))) ≤
            max_chars →
        CondensedMemoryBlock.summarize_text_with_llm llm text max_chars =
          pyStrip (llm (SUMMARIZE_TEXT_PROMPT_format max_chars text))) ∧
      ∀ (llm : String → String) (text : String) (max_chars : Nat),
        pyLen (pyStrip text) > max_chars →
        pyLen (pyStrip (llm (SUMMARIZE_TEXT_PROMPT_format max_chars text))) >
            max_chars →
        CondensedMemoryBlock.summarize_text_with_llm llm text max_chars =
          pyRStrip (pyTake (pyStrip (llm (SUMMARIZE_TEXT_PROMPT_format max_chars text)))
              max_chars) ++ "..." := by
  refine ⟨fun llm text mc h => ?_, fun llm text mc h1 h2 => ?_,
    fun llm text mc h1 h2 => ?_⟩
  · simp [CondensedMemoryBlock.summarize_text_with_llm, h]
  · simp [CondensedMemoryBlock.summarize_text_with_llm, not_le.mpr h1, not_lt.mpr h2]
  · simp [CondensedMemoryBlock.summarize_text_with_llm, not_le.mpr h1, h2]

/-- C9 witness: a short text passes through trimmed; a 12-character text
under limit 3 with a 5-character LLM reply is truncated to `"xxx..."`. -/
theorem C9_witness :
    CondensedMemoryBlock.summarize_text_with_llm (fun _ => "xxxxx") "hi " 10 = "hi" ∧
      CondensedMemoryBlock.summarize_text_with_llm (fun _ => "xxxxx")
          "abcdefghijkl" 3 = "xxx..." :=
  ⟨C9_summarize.1 (fun _ => "xxxxx") "hi " 10 (by decide),
    C9_summarize.2.2 (fun _ => "xxxxx") "abcdefghijkl" 3 (by decide) (by decide)⟩

/-- Filtered kwargs never contain the two housekeeping keys. -/
theorem processKwargs_excludes :
    ∀ {items kw}, processKwargs items = some kw →
      ∀ kv ∈ kw, kv.1 ≠ "session_id" ∧ kv.1 ≠ "tool_call_id" := by
  intro items
  induction items with
  | nil =>
    intro kw h kv hkv
    simp only [processKwargs] at h
    injection h with h
    subst h
    simp at hkv
  | cons item rest ih =>
    intro kw h kv hkv
    obtain ⟨key, val⟩ := item
    by_cases h1 : key = "tool_calls"
    · subst h1
      simp only [processKwargs, if_pos rfl] at h
      cases htc : transformToolCalls val with
      | none => rw [htc] at h; cases h
      | some v =>
        rw [htc] at h
        cases hr : processKwargs rest with
        | none => rw [hr] at h; cases h
        | some kwr =>
          rw [hr] at h
          injection h with h
          subst h
          rcases List.mem_cons.mp hkv with hkv | hkv
          · subst hkv
            exact ⟨(by decide : ("tool_calls" : String) ≠ "session_id"),
              (by decide : ("tool_calls" : String) ≠ "tool_call_id")⟩
          · exact ih hr kv hkv
    · by_cases h2 : key = "session_id" ∨ key = "tool_call_id"
      · simp only [processKwargs, if_neg h1, if_pos h2] at h
        exact ih h kv hkv
      · simp only [processKwargs, if_neg h1, if_neg h2] at h
        cases hr : processKwargs rest with
        | none => rw [hr] at h; cases h
        | some kwr =>
          rw [hr] at h
          injection h with h
          subst h
          rcases List.mem_cons.mp hkv with hkv | hkv
          · subst hkv
            push_neg at h2
            exact ⟨h2.1, h2.2⟩
          · exact ih hr kv hkv

/-- Every annotation other than `tool_calls`, `session_id` and
`tool_call_id` survives filtering verbatim. -/
theorem processKwargs_keeps :
    ∀ {items kw} (k : String) (v : PyVal), processKwargs items = some kw →
      (k, v) ∈ items → k ≠ "tool_calls" → k ≠ "session_id" →
      k ≠ "tool_call_id" → (k, v) ∈ kw := by
  intro items
  induction items with
  | nil => intro kw k v _ hmem; simp at hmem
  | cons item rest ih =>
    intro kw k v h hmem hk1 hk2 hk3
    obtain ⟨key, val⟩ := item
    by_cases h1 : key = "tool_calls"
    · subst h1
      simp only [processKwargs, if_pos rfl] at h
      cases htc : transformToolCalls val with
      | none => rw [htc] at h; cases h
      | some v2 =>
        rw [htc] at h
        cases hr : processKwargs rest with
        | none => rw [hr] at h; cases h
        | some kwr =>
          rw [hr] at h
          injection h with h
          subst h
          rcases List.mem_cons.mp hmem with hmem | hmem
          · exact absurd (congrArg Prod.fst hmem) hk1
          · exact List.mem_cons_of_mem _ (ih k v hr hmem hk1 hk2 hk3)
    · by_cases h2 : key = "session_id" ∨ key = "tool_call_id"
      · simp only [processKwargs, if_neg h1, if_pos h2] at h
        rcases List.mem_cons.mp hmem with hmem | hmem
        · rcases h2 with h2 | h2 <;> rw [h2] at hmem
          · exact absurd (congrArg Prod.fst hmem) hk2
          · exact absurd (congrArg Prod.fst hmem) hk3
        · exact ih k v h hmem hk1 hk2 hk3
      · simp only [processKwargs, if_neg h1, if_neg h2] at h
        cases hr : processKwargs rest with
        | none => rw [hr] at h; cases h
        | some kwr =>
          rw [hr] at h
          injection h with h
          subst h
          rcases List.mem_cons.mp hmem with hmem | hmem
          · rw [hmem]; exact List.mem_cons_self _ _
          · exact List.mem_cons_of_mem _ (ih k v hr hmem hk1 hk2 hk3)

/-- A `tool_calls` annotation survives filtering in reduced form: its
value is transformed by `transformToolCalls` and stored under the same
key. -/
theorem processKwargs_toolcalls :
    ∀ {items kw} (v : PyVal), processKwargs items = some kw →
      ("tool_calls", v) ∈ items →
      ∃ v', transformToolCalls v = some v' ∧ ("tool_calls", v') ∈ kw := by
  intro items
  induction items with
  | nil => intro kw v _ hmem; simp at hmem
  | cons item rest ih =>
    intro kw v h hmem
    obtain ⟨key, val⟩ := item
    by_cases h1 : key = "tool_calls"
    · subst h1
      simp only [processKwargs, if_pos rfl] at h
      cases htc : transformToolCalls val with
      | none => rw [htc] at h; cases h
      | some v2 =>
        rw [htc] at h
        cases hr : processKwargs rest with
        | none => rw [hr] at h; cases h
        | some kwr =>
          rw [hr] at h
          injection h with h
          subst h
          rcases List.mem_cons.mp hmem with hmem | hmem
          · have hv : v = val := congrArg Prod.snd hmem
            subst hv
            exact ⟨v2, htc, List.mem_cons_self _ _⟩
          · obtain ⟨v', hv', hmem'⟩ := ih v hr hmem
            exact ⟨v', hv', List.mem_cons_of_mem _ hmem'⟩
    · by_cases h2 : key = "session_id" ∨ key = "tool_call_id"
      · simp only [processKwargs, if_neg h1, if_pos h2] at h
        rcases List.mem_cons.mp hmem with hmem | hmem
        · exact absurd (congrArg Prod.fst hmem).symm h1
        · exact ih v h hmem
      · simp only [processKwargs, if_neg h1, if_neg h2] at h
        cases hr : processKwargs rest with
        | none => rw [hr] at h; cases h
        | some kwr =>
          rw [hr] at h
          injection h with h
          subst h
          rcases List.mem_cons.mp hmem with hmem | hmem
          · exact absurd (congrArg Prod.fst hmem).symm h1
          · obtain ⟨v', hv', hmem'⟩ := ih v hr hmem
            exact ⟨v', hv', List.mem_cons_of_mem _ hmem'⟩

/-- C10: the annotation rendering of an ingested turn excludes
`session_id` and `tool_call_id`, passes every other key through verbatim,
reduces a `tool_calls` annotation to `name`/`args` pairs drawn from each
element's `function.name` and `function.arguments`, and omits the
parenthesized rendering entirely when no annotations remain after
filtering (and renders the filtered dict when some do). -/
theorem C10_annotation_filtering :
    (∀ (items kw : List (String × PyVal)), processKwargs items = some kw →
        ∀ kv ∈ kw, kv.1 ≠ "session_id" ∧ kv.1 ≠ "tool_call_id") ∧
      (∀ (items kw : List (String × PyVal)) (k : String) (v : PyVal),
        processKwargs items = some kw → (k, v) ∈ items → k ≠ "tool_calls" →
        k ≠ "session_id" → k ≠ "tool_call_id" → (k, v) ∈ kw) ∧
      (∀ (items kw : List (String × PyVal)) (v : PyVal),
        processKwargs items = some kw → ("tool_calls", v) ∈ items →
        ∃ v', transformToolCalls v = some v' ∧ ("tool_calls", v') ∈ kw) ∧
      (transformToolCalls
          (.list [.dict [("function",
            .dict [("name", .str "search"), ("arguments", .dict [("q", .str "t")])])]]) =
        some (.list [.dict [("name", .str "search"),
          ("args", .dict [("q", .str "t")])]])) ∧
      (∀ (llm : String → String) (msg : ChatMessage),
        processKwargs msg.additional_kwargs = some [] →
        entryOfMessage llm msg = some (joinNL (summariesOf llm msg.blocks))) ∧
      ∀ (llm : String → String) (msg : ChatMessage) (kw : List (String × PyVal)),
        processKwargs msg.additional_kwargs = some kw → kw ≠ [] →
        entryOfMessage llm msg =
          some (joinNL (summariesOf llm msg.blocks) ++ "\n(" ++
            pyReprVal (.dict kw) ++ ")") := by
  refine ⟨fun _ _ h => processKwargs_excludes h,
    fun _ _ k v h hm h1 h2 h3 => processKwargs_keeps k v h hm h1 h2 h3,
    fun _ _ v h hm => processKwargs_toolcalls v h hm, rfl,
    fun llm msg h => ?_, fun llm msg kw h hne => ?_⟩
  · simp [entryOfMessage, h]
  · cases kw with
    | nil => exact absurd rfl hne
    | cons kv kwr => simp [entryOfMessage, h]

/-- C10 witness: the spec's example annotations
`(session_id, tool_call_id, keep)` keep only `keep`, and a turn whose
only annotation is `session_id` renders with no parenthesized part. -/
theorem C10_witness :
    (("keep", PyVal.str "z") ∈ ([("keep", PyVal.str "z")] : List (String × PyVal))) ∧
      entryOfMessage id ⟨[.text "hello"], [("session_id", .str "x")]⟩ = some "hello" :=
  ⟨C10_annotation_filtering.2.1
      [("session_id", .str "x"), ("tool_call_id", .str "y"), ("keep", .str "z")]
      [("keep", PyVal.str "z")] "keep" (.str "z") rfl
      (List.mem_cons_of_mem _ (List.mem_cons_of_mem _ (List.mem_cons_self _ _)))
      (by decide) (by decide) (by decide),
    C10_annotation_filtering.2.2.2.2.1 id
      ⟨[.text "hello"], [("session_id", .str "x")]⟩ rfl⟩

/-! ## Helper lemmas on the proposition merge loop -/

/-- Unfolding of the merge loop over a first candidate. -/
theorem mergeProps_cons (props : List String) (c : String) (cs : List String) :
    mergeProps props (c :: cs) =
      mergeProps (if c ∈ props then props else props ++ [c]) cs := rfl

/-- The merge loop preserves freedom from duplicates. -/
theorem mergeProps_nodup :
    ∀ (cands props : List String), props.Nodup → (mergeProps props cands).Nodup := by
  intro cands
  induction cands with
  | nil => intro props h; exact h
  | cons c cs ih =>
    intro props h
    rw [mergeProps_cons]
    by_cases hc : c ∈ props
    · rw [if_pos hc]; exact ih props h
    · rw [if_neg hc]
      refine ih _ ?_
      simpa [List.nodup_append] using ⟨h, hc⟩

/-- The merged list holds exactly the pre-existing propositions and the
candidates, so re-ingesting an already-stored candidate adds nothing. -/
theorem mem_mergeProps :
    ∀ (cands props : List String) (p : String),
      p ∈ mergeProps props cands ↔ p ∈ props ∨ p ∈ cands := by
  intro cands
  induction cands with
  | nil => intro props p; simp [mergeProps]
  | cons c cs ih =>
    intro props p
    rw [mergeProps_cons]
    by_cases hc : c ∈ props
    · rw [if_pos hc, ih]
      constructor
      · rintro (h | h)
        · exact Or.inl h
        · exact Or.inr (List.mem_cons_of_mem _ h)
      · rintro (h | h)
        · exact Or.inl h
        · rcases List.mem_cons.mp h with rfl | h
          · exact Or.inl hc
          · exact Or.inr h
    · rw [if_neg hc, ih]
      simp [List.mem_append, List.mem_cons, or_assoc]

/-- Whenever every parsed LLM reply is duplicate-free, a successful
`_aput` preserves freedom from duplicates. -/
theorem aput_nodup {ε : Type} {llm : LLMCall → Except ε String}
    {blk blk' : PropositionExtractionMemoryBlock} {msgs : List ChatMessage}
    (hpre : blk.propositions.Nodup)
    (hllm : ∀ c r, llm c = .ok r → (parsePropositionsXml r).Nodup)
    (h : PropositionExtractionMemoryBlock.aput llm blk msgs = .ok blk') :
    blk'.propositions.Nodup := by
  unfold PropositionExtractionMemoryBlock.aput at h
  split at h
  · injection h with h; subst h; exact hpre
  · split at h
    · cases h
    · next reply hreply =>
      simp only at h
      split at h
      · split at h
        · cases h
        · next reply2 hreply2 =>
          split at h
          · injection h with h; subst h; exact mergeProps_nodup _ _ hpre
          · injection h with h; subst h
            exact hllm _ _ hreply2
      · injection h with h; subst h; exact mergeProps_nodup _ _ hpre

/-! ## Claim theorems: PropositionExtractionMemoryBlock -/

/-- C3 counterexample: with cap 1, an ingest whose condenser reply parses
to three propositions stores all three — `len(propositions) <= cap` is not
re-established, because the code trusts the condenser output without
checking its size. -/
theorem C3_counterexample :
    PropositionExtractionMemoryBlock.aput condenseOverLLM ⟨"p3", [], 1⟩ [mCat] =
        .ok ⟨"p3", ["c", "d", "e"], 1⟩ ∧
      ((["c", "d", "e"] : List String).length : Int) > 1 :=
  ⟨rfl, by decide⟩

/-- C3 (amended): when the post-merge proposition count exceeds the cap,
the condenser is invoked with the full merged list; if its reply parses to
at least one proposition the stored list is replaced wholesale by the
parsed output (no merge, no dedup, and no guarantee the new length is
within the cap), and if parsing yields zero propositions the replacement
is skipped and the over-cap merged list is kept. -/
theorem C3_condense_replaces_wholesale (ε : Type) (llm : LLMCall → Except ε String)
    (blk : PropositionExtractionMemoryBlock) (msgs : List ChatMessage)
    (r1 r2 : String)
    (hne : msgs ≠ [])
    (h1 : llm (.extract msgs (existingText blk.propositions)) = .ok r1)
    (hover : ((mergeProps blk.propositions (parsePropositionsXml r1)).length : Int) >
      blk.max_propositions)
    (h2 : llm (.condense msgs
        (renderProps (mergeProps blk.propositions (parsePropositionsXml r1)))
        blk.max_propositions) = .ok r2) :
    PropositionExtractionMemoryBlock.aput llm blk msgs =
      .ok { blk with propositions :=
        (if parsePropositionsXml r2 = [] then
          mergeProps blk.propositions (parsePropositionsXml r1)
        else parsePropositionsXml r2) } := by
  have hne' : msgs.isEmpty = false := by
    cases msgs with
    | nil => exact absurd rfl hne
    | cons _ _ => rfl
  simp only [PropositionExtractionMemoryBlock.aput, hne', Bool.false_eq_true,
    if_false, h1]
  rw [if_pos hover, h2]
  by_cases hp : parsePropositionsXml r2 = []
  · simp [hp]
  · simp [hp, List.isEmpty_iff]

/-- C3 witness: the amended behavior on the concrete over-cap scenario. -/
theorem C3_witness :
    PropositionExtractionMemoryBlock.aput condenseOverLLM ⟨"p3w", [], 1⟩ [mCat] =
      .ok ⟨"p3w", ["c", "d", "e"], 1⟩ :=
  C3_condense_replaces_wholesale Unit condenseOverLLM ⟨"p3w", [], 1⟩ [mCat]
    "<proposition>a</proposition><proposition>b</proposition>"
    "<proposition>c</proposition><proposition>d</proposition><proposition>e</proposition>"
    (List.cons_ne_nil _ _) rfl (by decide) rfl

/-- C4 counterexample: a condenser reply that parses to `["c", "c"]` is
stored verbatim, so after this ingest the stored list holds two
exact-equal elements — the no-duplicates invariant fails on the
condensation path. -/
theorem C4_counterexample :
    PropositionExtractionMemoryBlock.aput condenseDupLLM ⟨"p4", [], 1⟩ [mCat] =
        .ok ⟨"p4", ["c", "c"], 1⟩ ∧
      ¬ (["c", "c"] : List String).Nodup :=
  ⟨rfl, by decide⟩

/-- C4 (amended): the merge step never stores a duplicate — each candidate
is appended only if absent from the pre-existing propositions plus the
candidates appended earlier in the same pass, and a candidate already
stored is not stored again — so the stored list stays duplicate-free
after every successful ingest provided every parsed condenser reply is
itself duplicate-free; the condensation path stores the condenser's
parsed reply verbatim and can otherwise introduce duplicates. -/
theorem C4_dedup :
    (∀ (props cands : List String), props.Nodup → (mergeProps props cands).Nodup) ∧
      (∀ (props cands : List String) (p : String),
        p ∈ mergeProps props cands ↔ p ∈ props ∨ p ∈ cands) ∧
      ∀ (ε : Type) (llm : LLMCall → Except ε String)
        (blk blk' : PropositionExtractionMemoryBlock) (msgs : List ChatMessage),
        blk.propositions.Nodup →
        (∀ c r, llm c = .ok r → (parsePropositionsXml r).Nodup) →
        PropositionExtractionMemoryBlock.aput llm blk msgs = .ok blk' →
        blk'.propositions.Nodup :=
  ⟨fun props cands h => mergeProps_nodup cands props h,
    fun props cands p => mem_mergeProps cands props p,
    fun _ _ _ _ _ hpre hllm h => aput_nodup hpre hllm h⟩

/-- C4 witness: a duplicate-free ingest run keeps the store
duplicate-free. -/
theorem C4_witness : (["a", "b"] : List String).Nodup :=
  C4_dedup.2.2 Unit nodupLLM ⟨"pw", [], 50⟩ ⟨"pw", ["a", "b"], 50⟩ [mCat]
    (by simp)
    (fun c r h => by
      cases c with
      | extract m e => simp only [nodupLLM] at h; injection h with h; subst h; decide
      | condense m e mp => simp only [nodupLLM] at h; injection h with h; subst h; decide)
    rfl

/-- C5: a raised extractor call makes `_aput` fail with that same failure
and the stored propositions unchanged; a raised condenser call fails with
the completed merge retained — the merge step is not rolled back. -/
theorem C5_failure_propagation :
    (∀ (ε : Type) (llm : LLMCall → Except ε String)
        (blk : PropositionExtractionMemoryBlock) (msgs : List ChatMessage) (e : ε),
        msgs ≠ [] →
        llm (.extract msgs (existingText blk.propositions)) = .error e →
        PropositionExtractionMemoryBlock.aput llm blk msgs = .error (e, blk)) ∧
      ∀ (ε : Type) (llm : LLMCall → Except ε String)
        (blk : PropositionExtractionMemoryBlock) (msgs : List ChatMessage)
        (e : ε) (r1 : String),
        msgs ≠ [] →
        llm (.extract msgs (existingText blk.propositions)) = .ok r1 →
        ((mergeProps blk.propositions (parsePropositionsXml r1)).length : Int) >
            blk.max_propositions →
        llm (.condense msgs
            (renderProps (mergeProps blk.propositions (parsePropositionsXml r1)))
            blk.max_propositions) = .error e →
        PropositionExtractionMemoryBlock.aput llm blk msgs =
          .error (e, { blk with propositions :=
            (mergeProps blk.propositions (parsePropositionsXml r1)) }) := by
  constructor
  · intro ε llm blk msgs e hne h1
    have hne' : msgs.isEmpty = false := by
      cases msgs with
      | nil => exact absurd rfl hne
      | cons _ _ => rfl
    simp [PropositionExtractionMemoryBlock.aput, hne', h1]
  · intro ε llm blk msgs e r1 hne h1 hover h2
    have hne' : msgs.isEmpty = false := by
      cases msgs with
      | nil => exact absurd rfl hne
      | cons _ _ => rfl
    simp only [PropositionExtractionMemoryBlock.aput, hne', Bool.false_eq_true,
      if_false, h1]
    rw [if_pos hover, h2]

/-- C5 witness: a failing extractor leaves `["keep"]` untouched; a failing
condenser keeps the merged `["a", "b"]`. -/
theorem C5_witness :
    PropositionExtractionMemoryBlock.aput failingExtractLLM
        ⟨"p5", ["keep"], 50⟩ [mCat] = .error ("boom", ⟨"p5", ["keep"], 50⟩) ∧
      PropositionExtractionMemoryBlock.aput failingCondenseLLM
        ⟨"p5b", [], 1⟩ [mCat] = .error ("bam", ⟨"p5b", ["a", "b"], 1⟩) :=
  ⟨C5_failure_propagation.1 String failingExtractLLM ⟨"p5", ["keep"], 50⟩ [mCat]
      "boom" (List.cons_ne_nil _ _) rfl,
    C5_failure_propagation.2 String failingCondenseLLM ⟨"p5b", [], 1⟩ [mCat]
      "bam" "<proposition>a</proposition><proposition>b</proposition>"
      (List.cons_ne_nil _ _) rfl (by decide) rfl⟩

/-! ## Helper lemmas on the tag scanner -/

/-- String append acts as list append on the character data. -/
theorem strData_append (a b : String) : (a ++ b).data = a.data ++ b.data := rfl

/-- A list is a (boolean) prefix of itself followed by anything. -/
theorem isPrefixOf_self_append : ∀ (p r : List Char), p.isPrefixOf (p ++ r) = true := by
  intro p r
  induction p with
  | nil => simp
  | cons a t ih => simp [List.isPrefixOf, ih]

/-- Scanning for a pattern that starts with `<` over a `<`-free chunk
followed by the pattern finds exactly that occurrence. -/
theorem splitOnce_first (pat : List Char) (hpat : pat.head? = some '<') :
    ∀ (l r : List Char), (∀ c ∈ l, c ≠ '<') →
      splitOnce pat (l ++ (pat ++ r)) = some (l, r) := by
  obtain ⟨pt, rfl⟩ : ∃ pt, pat = '<' :: pt := by
    cases pat with
    | nil => cases hpat
    | cons a t =>
      have ha : a = '<' := by simpa using hpat
      exact ⟨t, by rw [ha]⟩
  intro l
  induction l with
  | nil =>
    intro r _
    rw [List.nil_append, List.cons_append, splitOnce,
      if_pos (by simp [isPrefixOf_self_append ('<' :: pt) r])]
    simp [List.drop_left]
  | cons c l' ihl =>
    intro r hl
    have hc : ('<' == c) = false :=
      beq_eq_false_iff_ne.mpr (Ne.symm (hl c (List.mem_cons_self _ _)))
    rw [List.cons_append, splitOnce, if_neg (by simp [List.isPrefixOf, hc]),
      ihl r fun x hx => hl x (List.mem_cons_of_mem _ hx)]

/-- Scanning for a pattern that starts with `<` over a `<`-free chunk
ending exactly in the pattern. -/
theorem splitOnce_last (pat : List Char) (hpat : pat.head? = some '<')
    (l : List Char) (hl : ∀ c ∈ l, c ≠ '<') :
    splitOnce pat (l ++ pat) = some (l, []) := by
  have := splitOnce_first pat hpat l [] hl
  simpa using this

/-- A pattern that starts with `<` does not occur in a `<`-free string. -/
theorem splitOnce_none (pat : List Char) (hpat : pat.head? = some '<') :
    ∀ (s : List Char), (∀ c ∈ s, c ≠ '<') → splitOnce pat s = none := by
  obtain ⟨pt, rfl⟩ : ∃ pt, pat = '<' :: pt := by
    cases pat with
    | nil => cases hpat
    | cons a t =>
      have ha : a = '<' := by simpa using hpat
      exact ⟨t, by rw [ha]⟩
  intro s
  induction s with
  | nil => intro _; rw [splitOnce, if_neg (by simp)]
  | cons c t ih =>
    intro hs
    have hc : ('<' == c) = false :=
      beq_eq_false_iff_ne.mpr (Ne.symm (hs c (List.mem_cons_self _ _)))
    rw [splitOnce, if_neg (by simp [List.isPrefixOf, hc]),
      ih fun x hx => hs x (List.mem_cons_of_mem _ hx)]

/-- The scanner finds nothing in the empty input. -/
theorem extractTaggedGo_nil : ∀ fuel, extractTaggedGo fuel [] = [] := by
  intro fuel
  cases fuel with
  | zero => rfl
  | succ f => rw [extractTaggedGo, show splitOnce openTagChars [] = none from rfl]

/-- The scanner finds nothing in input holding no `<` character. -/
theorem extractTaggedGo_no_lt (fuel : Nat) (s : List Char)
    (hs : ∀ c ∈ s, c ≠ '<') : extractTaggedGo fuel s = [] := by
  cases fuel with
  | zero => rfl
  | succ f => rw [extractTaggedGo, splitOnce_none openTagChars rfl s hs]

/-- One scanner step over a `<`-free chunk, a complete tagged proposition
with `<`-free content, and arbitrary remaining input. -/
theorem extractTaggedGo_step (fuel : Nat) (junk : List Char) (p : String)
    (tail : List Char) (hjunk : ∀ c ∈ junk, c ≠ '<')
    (hp : ∀ c ∈ p.data, c ≠ '<') :
    extractTaggedGo (fuel + 1)
        (junk ++ (openTagChars ++ (p.data ++ (closeTagChars ++ tail)))) =
      p.data :: extractTaggedGo fuel tail := by
  rw [extractTaggedGo,
    splitOnce_first openTagChars rfl junk (p.data ++ (closeTagChars ++ tail)) hjunk]
  simp only
  rw [splitOnce_first closeTagChars rfl p.data tail hp]

/-- One scanner step over a `<`-free chunk and a final complete tagged
proposition with `<`-free content. -/
theorem extractTaggedGo_last (fuel : Nat) (junk : List Char) (p : String)
    (hjunk : ∀ c ∈ junk, c ≠ '<') (hp : ∀ c ∈ p.data, c ≠ '<') :
    extractTaggedGo (fuel + 1) (junk ++ (openTagChars ++ (p.data ++ closeTagChars))) =
      [p.data] := by
  rw [extractTaggedGo,
    splitOnce_first openTagChars rfl junk (p.data ++ closeTagChars) hjunk]
  simp only
  rw [splitOnce_last closeTagChars rfl p.data hp]
  simp [extractTaggedGo_nil]

/-- Character data of the rendering of a single proposition. -/
theorem renderProps_single_data (p : String) :
    (renderProps [p]).data = openTagChars ++ (p.data ++ closeTagChars) := by
  show (("<proposition>" ++ p ++ "</proposition>")).data = _
  simp [strData_append, openTagChars, closeTagChars, List.append_assoc]

/-- Character data of the rendering of two or more propositions. -/
theorem renderProps_cons_data (p : String) (ps : List String) (h : ps ≠ []) :
    (renderProps (p :: ps)).data =
      openTagChars ++ (p.data ++ (closeTagChars ++ ('\n' :: (renderProps ps).data))) := by
  cases ps with
  | nil => exact absurd rfl h
  | cons q qs =>
    show (("<proposition>" ++ p ++ "</proposition>") ++ "\n" ++
      renderProps (q :: qs)).data = _
    simp [strData_append, openTagChars, closeTagChars, List.append_assoc,
      show ("\n" : String).data = ['\n'] from rfl]

/-! ## Helper lemmas on whitespace stripping -/

/-- Dropping a satisfied prefix twice equals dropping it once. -/
theorem dropWhile_dropWhile (p : Char → Bool) (l : List Char) :
    List.dropWhile p (List.dropWhile p l) = List.dropWhile p l := by
  induction l with
  | nil => rfl
  | cons c t ih =>
    by_cases hc : p c
    · simp [List.dropWhile_cons, hc, ih]
    · simp [List.dropWhile_cons, hc]

/-- The head surviving a `dropWhile` fails the predicate. -/
theorem dropWhile_head_false (p : Char → Bool) :
    ∀ (l : List Char) (c : Char) (t : List Char),
      List.dropWhile p l = c :: t → p c = false := by
  intro l
  induction l with
  | nil => intro c t h; cases h
  | cons a l' ih =>
    intro c t h
    by_cases ha : p a
    · rw [List.dropWhile_cons, if_pos ha] at h
      exact ih c t h
    · rw [List.dropWhile_cons, if_neg ha] at h
      injection h with h1 _
      subst h1
      exact Bool.eq_false_iff.mpr ha

/-- A list whose head fails the predicate is untouched by `dropWhile`. -/
theorem dropWhile_of_head_false (p : Char → Bool) (c : Char) (t : List Char)
    (h : p c = false) : List.dropWhile p (c :: t) = c :: t := by
  simp [List.dropWhile_cons, h]

/-- Stripping whitespace from both ends is idempotent. -/
theorem stripChars_idem (l : List Char) : stripChars (stripChars l) = stripChars l := by
  unfold stripChars
  set d := Char.isWhitespace with hd
  set A := l.dropWhile d with hA
  set B := A.reverse.dropWhile d with hB
  have hBB : B.dropWhile d = B := by rw [hB]; exact dropWhile_dropWhile d A.reverse
  have hsplit : A = B.reverse ++ (A.reverse.takeWhile d).reverse := by
    have htd : A.reverse.takeWhile d ++ B = A.reverse := by
      rw [hB]; exact List.takeWhile_append_dropWhile d A.reverse
    calc A = A.reverse.reverse := (List.reverse_reverse A).symm
      _ = (A.reverse.takeWhile d ++ B).reverse := by rw [htd]
      _ = B.reverse ++ (A.reverse.takeWhile d).reverse := List.reverse_append _ _
  have h1 : B.reverse.dropWhile d = B.reverse := by
    cases hBrev : B.reverse with
    | nil => rfl
    | cons c t =>
      have hcA : List.dropWhile d l = c :: (t ++ (A.reverse.takeWhile d).reverse) := by
        conv_lhs => rw [← hA, hsplit, hBrev, List.cons_append]
      exact dropWhile_of_head_false d c t (dropWhile_head_false d l c _ hcA)
  rw [h1, List.reverse_reverse, hBB]

/-- The scanner recovers, in order, exactly the contents of a rendered
proposition list whose elements hold no `<`, for any `<`-free leading
junk and sufficient fuel. -/
theorem extractTaggedGo_render :
    ∀ (ps : List String), (∀ p ∈ ps, ∀ c ∈ p.data, c ≠ '<') →
      ∀ (junk : List Char), (∀ c ∈ junk, c ≠ '<') →
      ∀ fuel, (junk ++ (renderProps ps).data).length < fuel →
      extractTaggedGo fuel (junk ++ (renderProps ps).data) = ps.map String.data := by
  intro ps
  induction ps with
  | nil =>
    intro _ junk hjunk fuel _
    rw [show (renderProps []).data = [] from rfl, List.append_nil]
    simp [extractTaggedGo_no_lt fuel junk hjunk]
  | cons p ps ih =>
    intro hno junk hjunk fuel hfuel
    have hp : ∀ c ∈ p.data, c ≠ '<' := hno p (List.mem_cons_self p ps)
    have hps : ∀ q ∈ ps, ∀ c ∈ q.data, c ≠ '<' :=
      fun q hq => hno q (List.mem_cons_of_mem _ hq)
    cases fuel with
    | zero => exact absurd hfuel (by omega)
    | succ f =>
      by_cases hnil : ps = []
      · subst hnil
        rw [renderProps_single_data, extractTaggedGo_last f junk p hjunk hp]
        rfl
      · rw [renderProps_cons_data p ps hnil] at hfuel ⊢
        rw [extractTaggedGo_step f junk p ('\n' :: (renderProps ps).data) hjunk hp]
        have hj2 : ∀ c ∈ ['\n'], c ≠ '<' := by
          intro c hc
          rw [List.mem_singleton] at hc
          subst hc
          decide
        have hlen : (['\n'] ++ (renderProps ps).data).length < f := by
          have e1 : openTagChars.length = 13 := rfl
          have e2 : closeTagChars.length = 14 := rfl
          simp only [List.length_append, List.length_cons, List.length_singleton,
            List.length_nil, e1, e2] at hfuel ⊢
          omega
        have := ih hps ['\n'] hj2 f hlen
        rw [List.singleton_append] at this
        rw [this, List.map_cons]

/-- Parsed propositions are never the empty string. -/
theorem parse_no_empty (xml : String) : "" ∉ parsePropositionsXml xml := by
  intro h
  unfold parsePropositionsXml at h
  have := (List.mem_filter.mp h).2
  simp at this

/-- Parsed propositions carry no surrounding whitespace: stripping them
again changes nothing. -/
theorem parse_trimmed (xml : String) (p : String)
    (h : p ∈ parsePropositionsXml xml) : stripChars p.data = p.data := by
  unfold parsePropositionsXml at h
  obtain ⟨hmem, _⟩ := List.mem_filter.mp h
  obtain ⟨cs, _, hcs⟩ := List.mem_map.mp hmem
  rw [← hcs]
  exact stripChars_idem cs

/-- Round trip: parsing the rendering of nonempty, already-trimmed,
tag-free propositions returns them unchanged, in order. -/
theorem parse_render (ps : List String)
    (h : ∀ p ∈ ps, p ≠ "" ∧ stripChars p.data = p.data ∧ ∀ c ∈ p.data, c ≠ '<') :
    parsePropositionsXml (renderProps ps) = ps := by
  unfold parsePropositionsXml extractTagged
  have hrun := extractTaggedGo_render ps (fun p hp => (h p hp).2.2) []
    (by intro c hc; cases hc) ((renderProps ps).data.length + 1) (by simp)
  rw [List.nil_append] at hrun
  rw [hrun, List.map_map]
  have hmap : ps.map ((fun cs => String.mk (stripChars cs)) ∘ String.data) = ps := by
    have : ∀ p ∈ ps,
        ((fun cs => String.mk (stripChars cs)) ∘ String.data) p = id p := by
      intro p hp
      show String.mk (stripChars p.data) = p
      rw [(h p hp).2.1]
    rw [List.map_congr_left this, List.map_id]
  rw [hmap]
  rw [List.filter_eq_self.mpr]
  intro a ha
  simpa using (h a ha).1

/-- C6: the proposition-tag parser returns the tag-enclosed substrings in
left-to-right order, trimmed, discarding matches blank after trimming;
missing or malformed tags (including text entirely outside tag pairs)
yield the empty list; every output is nonempty and fully trimmed; and on
the rendering of any list of nonempty, trimmed, tag-free propositions it
round-trips exactly. -/
theorem C6_tag_grammar :
    parsePropositionsXml
        "<proposition>A</proposition><proposition>B</proposition>" = ["A", "B"] ∧
      parsePropositionsXml "no tags here" = [] ∧
      parsePropositionsXml "<proposition>   </proposition>" = [] ∧
      parsePropositionsXml "<proposition> A </proposition><proposition>unclosed" =
        ["A"] ∧
      (∀ xml : String, "" ∉ parsePropositionsXml xml) ∧
      (∀ xml p : String, p ∈ parsePropositionsXml xml →
        stripChars p.data = p.data) ∧
      ∀ ps : List String,
        (∀ p ∈ ps, p ≠ "" ∧ stripChars p.data = p.data ∧ ∀ c ∈ p.data, c ≠ '<') →
        parsePropositionsXml (renderProps ps) = ps :=
  ⟨rfl, rfl, rfl, rfl, parse_no_empty, parse_trimmed, parse_render⟩

/-- C6 witness: the round trip instantiated on `["A", "B"]`. -/
theorem C6_witness : parsePropositionsXml (renderProps ["A", "B"]) = ["A", "B"] :=
  C6_tag_grammar.2.2.2.2.2.2 ["A", "B"] (by decide)

end Memagents
